import Mathlib

/-!
Verification development for the citation-annotation pipeline of this
repository (scripts/merge_citos.py, scripts/parse_citos_from_qmd.py,
scripts/snake_to_camel_case.py, scripts/inject_cito_annotations_in_html.py,
scripts/update_yaml_header.py).

Python dictionaries are embedded as association lists that preserve
insertion order (as Python dicts do); Python sets of strings are embedded
as `Finset String`.  Python text is embedded as `List Char` where the
scripts do character-level work (strip, split), and as `String` elsewhere.
-/

namespace Spec2Proof

/-! ## Ordered dictionaries with set values

Embedding of `Dict[str, Set[str]]` together with the access patterns the
scripts use: `merged[k].update(ps)` on a `defaultdict(set)` (here
`dUpdate`), `d.get(k, default)` (here `dGet`), `k in d` (here `dHasKey`).
A `dUpdate` on an existing key unions into the stored set in place; on a
missing key it appends the new entry at the end, matching Python's
insertion-order semantics. -/

def dUpdate {α β : Type} [DecidableEq α] [DecidableEq β] :
    List (α × Finset β) → α → Finset β → List (α × Finset β)
  | [], k, ps => [(k, ps)]
  | (k', v) :: rest, k, ps =>
      if k' = k then (k', v ∪ ps) :: rest else (k', v) :: dUpdate rest k ps

def dGet {α β : Type} [DecidableEq α] : List (α × Finset β) → α → Finset β
  | [], _ => ∅
  | (k', v) :: rest, k => if k' = k then v else dGet rest k

def dHasKey {α β : Type} [DecidableEq α] : List (α × Finset β) → α → Bool
  | [], _ => false
  | (k', _) :: rest, k => if k' = k then true else dHasKey rest k

/-- Embedding of the inner loop of `merge_citos` (and of
`parse_citos_from_qmd`): fold one dictionary `d` into the accumulator `m`,
performing `m[cite_id].update(properties)` for each item of `d`. -/
def mergeDict {α β : Type} [DecidableEq α] [DecidableEq β]
    (m d : List (α × Finset β)) : List (α × Finset β) :=
  d.foldl (fun acc kv => dUpdate acc kv.1 kv.2) m

/-- Embedding of `merge_citos` from scripts/merge_citos.py: start from an
empty `defaultdict(set)` and fold every input dictionary in. -/
def merge_citos {α β : Type} [DecidableEq α] [DecidableEq β]
    (ds : List (List (α × Finset β))) : List (α × Finset β) :=
  ds.foldl mergeDict []

section DictLemmas

variable {α β : Type} [DecidableEq α] [DecidableEq β]

theorem dGet_dUpdate (m : List (α × Finset β)) (k : α) (ps : Finset β) (k' : α) :
    dGet (dUpdate m k ps) k' = if k' = k then dGet m k ∪ ps else dGet m k' := by
  induction m with
  | nil =>
      by_cases h : k' = k
      · subst h; simp [dUpdate, dGet]
      · have h2 : ¬ k = k' := fun he => h he.symm
        simp [dUpdate, dGet, h, h2]
  | cons kv rest ih =>
      obtain ⟨k₀, v₀⟩ := kv
      by_cases h0 : k₀ = k
      · subst h0
        by_cases h : k' = k₀
        · subst h
          simp [dUpdate, dGet]
        · have h2 : ¬ k₀ = k' := fun he => h he.symm
          simp [dUpdate, dGet, h, h2]
      · by_cases h : k' = k₀
        · subst h
          have hkk : ¬ k' = k := fun he => h0 (he ▸ rfl)
          simp [dUpdate, dGet, h0, hkk]
        · have h2 : ¬ k₀ = k' := fun he => h he.symm
          simp [dUpdate, dGet, h0, h, h2, ih]

theorem dHasKey_dUpdate (m : List (α × Finset β)) (k : α) (ps : Finset β) (k' : α) :
    dHasKey (dUpdate m k ps) k' = (dHasKey m k' || decide (k = k')) := by
  induction m with
  | nil => by_cases h : k = k' <;> simp [dUpdate, dHasKey, h]
  | cons kv rest ih =>
      obtain ⟨k₀, v₀⟩ := kv
      by_cases h0 : k₀ = k
      · subst h0
        by_cases h : k₀ = k' <;> simp [dUpdate, dHasKey, h]
      · by_cases h : k₀ = k'
        · subst h
          simp [dUpdate, dHasKey, h0]
        · simp [dUpdate, dHasKey, h0, h, ih]

theorem mem_dGet_mergeDict (m d : List (α × Finset β)) (k : α) (p : β) :
    p ∈ dGet (mergeDict m d) k ↔
      p ∈ dGet m k ∨ ∃ kv ∈ d, kv.1 = k ∧ p ∈ kv.2 := by
  induction d generalizing m with
  | nil => simp [mergeDict]
  | cons kv rest ih =>
      obtain ⟨k₀, v₀⟩ := kv
      have step : mergeDict m ((k₀, v₀) :: rest) = mergeDict (dUpdate m k₀ v₀) rest := rfl
      rw [step, ih, dGet_dUpdate]
      by_cases h : k = k₀
      · subst h
        rw [if_pos rfl, Finset.mem_union]
        constructor
        · rintro (⟨h1 | h1⟩ | h1)
          · exact Or.inl h1
          · exact Or.inr ⟨(k, v₀), List.mem_cons_self _ _, rfl, h1⟩
          · obtain ⟨kv, hkv, hk, hp⟩ := h1
            exact Or.inr ⟨kv, List.mem_cons_of_mem _ hkv, hk, hp⟩
        · rintro (h1 | ⟨kv, hkv, hk, hp⟩)
          · exact Or.inl (Or.inl h1)
          · rcases List.mem_cons.mp hkv with h2 | h2
            · subst h2; exact Or.inl (Or.inr hp)
            · exact Or.inr ⟨kv, h2, hk, hp⟩
      · rw [if_neg h]
        constructor
        · rintro (h1 | ⟨kv, hkv, hk, hp⟩)
          · exact Or.inl h1
          · exact Or.inr ⟨kv, List.mem_cons_of_mem _ hkv, hk, hp⟩
        · rintro (h1 | ⟨kv, hkv, hk, hp⟩)
          · exact Or.inl h1
          · rcases List.mem_cons.mp hkv with h2 | h2
            · subst h2; exact absurd hk (fun he => h he.symm)
            · exact Or.inr ⟨kv, h2, hk, hp⟩

theorem dHasKey_mergeDict (m d : List (α × Finset β)) (k : α) :
    dHasKey (mergeDict m d) k = (dHasKey m k || dHasKey d k) := by
  induction d generalizing m with
  | nil => simp [mergeDict, dHasKey]
  | cons kv rest ih =>
      obtain ⟨k₀, v₀⟩ := kv
      have step : mergeDict m ((k₀, v₀) :: rest) = mergeDict (dUpdate m k₀ v₀) rest := rfl
      rw [step, ih, dHasKey_dUpdate]
      by_cases h : k₀ = k <;>
        simp [dHasKey, h, Bool.or_assoc, Bool.or_comm, Bool.or_left_comm]

theorem mem_dGet_merge_citos (ds : List (List (α × Finset β))) (k : α) (p : β) :
    p ∈ dGet (merge_citos ds) k ↔ ∃ d ∈ ds, ∃ kv ∈ d, kv.1 = k ∧ p ∈ kv.2 := by
  have general : ∀ (ds : List (List (α × Finset β))) (m : List (α × Finset β)),
      p ∈ dGet (ds.foldl mergeDict m) k ↔
        p ∈ dGet m k ∨ ∃ d ∈ ds, ∃ kv ∈ d, kv.1 = k ∧ p ∈ kv.2 := by
    intro ds
    induction ds with
    | nil => simp
    | cons d rest ih =>
        intro m
        rw [List.foldl_cons, ih, mem_dGet_mergeDict]
        constructor
        · rintro (⟨h1 | h1⟩ | ⟨d', hd', h1⟩)
          · exact Or.inl h1
          · exact Or.inr ⟨d, List.mem_cons_self _ _, h1⟩
          · exact Or.inr ⟨d', List.mem_cons_of_mem _ hd', h1⟩
        · rintro (h1 | ⟨d', hd', h1⟩)
          · exact Or.inl (Or.inl h1)
          · rcases List.mem_cons.mp hd' with h2 | h2
            · subst h2; exact Or.inl (Or.inr h1)
            · exact Or.inr ⟨d', h2, h1⟩
  rw [merge_citos, general]
  simp [dGet]

theorem dHasKey_merge_citos (ds : List (List (α × Finset β))) (k : α) :
    dHasKey (merge_citos ds) k = ds.any (fun d => dHasKey d k) := by
  have general : ∀ (ds : List (List (α × Finset β))) (m : List (α × Finset β)),
      dHasKey (ds.foldl mergeDict m) k =
        (dHasKey m k || ds.any (fun d => dHasKey d k)) := by
    intro ds
    induction ds with
    | nil => simp
    | cons d rest ih =>
        intro m
        rw [List.foldl_cons, ih, dHasKey_mergeDict]
        simp [Bool.or_assoc]
  rw [merge_citos, general]
  simp [dHasKey]

omit [DecidableEq β] in
/-- With duplicate-free keys (always true of a Python dict), membership in
some entry is the same as membership in the looked-up value. -/
theorem mem_dGet_of_nodupKeys (d : List (α × Finset β)) (k : α) (p : β)
    (hnd : (d.map Prod.fst).Nodup) :
    (∃ kv ∈ d, kv.1 = k ∧ p ∈ kv.2) ↔ p ∈ dGet d k := by
  induction d with
  | nil => simp [dGet]
  | cons kv rest ih =>
      obtain ⟨k₀, v₀⟩ := kv
      have hnd' : (rest.map Prod.fst).Nodup := (List.nodup_cons.mp hnd).2
      have hk0 : k₀ ∉ rest.map Prod.fst := (List.nodup_cons.mp hnd).1
      by_cases h : k₀ = k
      · subst h
        simp only [dGet, if_pos rfl]
        constructor
        · rintro ⟨kv, hkv, hk, hp⟩
          rcases List.mem_cons.mp hkv with h2 | h2
          · subst h2; exact hp
          · exact absurd (hk ▸ List.mem_map_of_mem Prod.fst h2) hk0
        · intro hp; exact ⟨(k₀, v₀), List.mem_cons_self _ _, rfl, hp⟩
      · have hne : ¬ k₀ = k := h
        simp only [dGet, if_neg hne]
        rw [← ih hnd']
        constructor
        · rintro ⟨kv, hkv, hk, hp⟩
          rcases List.mem_cons.mp hkv with h2 | h2
          · subst h2; exact absurd hk h
          · exact ⟨kv, h2, hk, hp⟩
        · rintro ⟨kv, hkv, hk, hp⟩
          exact ⟨kv, List.mem_cons_of_mem _ hkv, hk, hp⟩

end DictLemmas

/-! ## Text utilities on character lists

Embeddings of the Python string operations the parser uses: `str.strip()`
(here `trim`, for the whitespace characters that occur in these files),
`str.split(sep)` (here `splitChar`, single-character separators only, which
is all the scripts use), and `str.split(sep, 1)` (here `splitFirst`). -/

def isSpace (c : Char) : Bool :=
  c = ' ' || c = '\t' || c = '\r' || c = '\n'

/-- Right side of `str.strip()`: drop trailing whitespace. -/
def trimRight (l : List Char) : List Char :=
  (l.reverse.dropWhile isSpace).reverse

/-- Embedding of `str.strip()`: drop leading and trailing whitespace. -/
def trim (l : List Char) : List Char :=
  trimRight (l.dropWhile isSpace)

/-- Embedding of `str.split(sep)` for a one-character separator: split on
every occurrence, keeping empty pieces, so that the empty string yields a
single empty piece, exactly as in Python. -/
def splitChar (sep : Char) : List Char → List (List Char)
  | [] => [[]]
  | c :: rest =>
      if c = sep then [] :: splitChar sep rest
      else
        match splitChar sep rest with
        | [] => [[c]]
        | g :: gs => (c :: g) :: gs

/-- Embedding of `str.split(sep, 1)`: split at the first occurrence of the
separator only, or return the whole string when the separator is absent. -/
def splitFirst (sep : Char) (s : List Char) : List (List Char) :=
  if sep ∈ s then [s.takeWhile (fun c => ¬ c = sep), (s.dropWhile (fun c => ¬ c = sep)).tail]
  else [s]

section TextLemmas

theorem splitChar_ne_nil (sep : Char) (l : List Char) : splitChar sep l ≠ [] := by
  cases l with
  | nil => simp [splitChar]
  | cons c rest =>
      by_cases h : c = sep
      · simp [splitChar, h]
      · simp only [splitChar, if_neg h]
        cases splitChar sep rest <;> simp

theorem mem_of_mem_trim {c : Char} {l : List Char} (h : c ∈ trim l) : c ∈ l := by
  have h1 : c ∈ (l.dropWhile isSpace).reverse.dropWhile isSpace := by
    simpa [trim, trimRight] using h
  have h2 : c ∈ (l.dropWhile isSpace).reverse := List.dropWhile_subset _ h1
  have h3 : c ∈ l.dropWhile isSpace := List.mem_reverse.mp h2
  exact List.dropWhile_subset _ h3

theorem trim_of_noSpace {l : List Char} (h : ∀ c ∈ l, isSpace c = false) :
    trim l = l := by
  have h1 : l.dropWhile isSpace = l := by
    cases l with
    | nil => rfl
    | cons c rest => simp [List.dropWhile_cons, h c (List.mem_cons_self _ _)]
  have h2 : l.reverse.dropWhile isSpace = l.reverse := by
    cases hr : l.reverse with
    | nil => rfl
    | cons c rest =>
        have hc : c ∈ l := List.mem_reverse.mp (hr ▸ List.mem_cons_self _ _)
        simp [List.dropWhile_cons, h c hc, hr]
  simp [trim, trimRight, h1, h2]

theorem dropWhile_head_false {p : Char → Bool} (l : List Char) {c : Char}
    (h : (l.dropWhile p).head? = some c) : p c = false := by
  induction l with
  | nil => simp at h
  | cons a t ih =>
      by_cases hp : p a = true
      · simp only [List.dropWhile_cons, if_pos hp] at h
        exact ih h
      · simp only [List.dropWhile_cons, if_neg hp] at h
        simp only [List.head?_cons, Option.some_inj] at h
        subst h
        exact Bool.eq_false_iff.mpr hp

theorem dropWhile_self_of_head {p : Char → Bool} (l : List Char)
    (h : ∀ c, l.head? = some c → p c = false) : l.dropWhile p = l := by
  cases l with
  | nil => rfl
  | cons a t =>
      have ha : p a = false := h a rfl
      simp [List.dropWhile_cons, ha]

theorem dropWhile_idem {p : Char → Bool} (l : List Char) :
    (l.dropWhile p).dropWhile p = l.dropWhile p := by
  apply dropWhile_self_of_head
  intro c hc
  exact dropWhile_head_false l hc

theorem getLast?_dropWhile {p : Char → Bool} (l : List Char)
    (h : l.dropWhile p ≠ []) : (l.dropWhile p).getLast? = l.getLast? := by
  induction l with
  | nil => simp at h
  | cons a t ih =>
      by_cases hp : p a = true
      · simp only [List.dropWhile_cons, if_pos hp] at h ⊢
        have htne : t ≠ [] := by
          intro he; rw [he] at h; exact h rfl
        rw [ih h]
        obtain ⟨b, t', rfl⟩ := List.exists_cons_of_ne_nil htne
        simp [List.getLast?_cons_cons]
      · simp [List.dropWhile_cons, if_neg hp]

theorem trim_idem (l : List Char) : trim (trim l) = trim l := by
  have htl : trim l = ((l.dropWhile isSpace).reverse.dropWhile isSpace).reverse := rfl
  have hstep1 : (trim l).dropWhile isSpace = trim l := by
    apply dropWhile_self_of_head
    intro c hc
    rw [htl, List.head?_reverse] at hc
    have hyne : (l.dropWhile isSpace).reverse.dropWhile isSpace ≠ [] := by
      intro he; rw [he] at hc; simp at hc
    rw [getLast?_dropWhile _ hyne, List.getLast?_reverse] at hc
    exact dropWhile_head_false l hc
  rw [trim, hstep1, trimRight, htl, List.reverse_reverse, dropWhile_idem]

end TextLemmas

/-! ## Citation parsing (scripts/parse_citos_from_qmd.py) -/

/-- The default CiTO property used when a citation carries no explicit
property (constant DEFAULT_CITO_PROPERTY of the script). -/
def DEFAULT_CITO_PROPERTY : List Char := "citation".data

/-- Embedding of `parse_single_citation`: strip the entry, drop a leading
`@` (stripping again), split on the first colon into (property, id); when
no colon is present, return the default property with the whole (stripped)
text as the citation id. -/
def parse_single_citation (citation : List Char) : List Char × List Char :=
  let c1 := trim citation
  let c2 := if c1.head? = some '@' then trim c1.tail else c1
  match splitFirst ':' c2 with
  | [p, cid] => (trim p, trim cid)
  | parts => (DEFAULT_CITO_PROPERTY, trim (parts.headD []))

/-- Embedding of `parse_citation_group`: split the group on semicolons,
strip each piece, skip empty pieces, and add each parsed (property, id)
pair to a `defaultdict(set)` keyed by citation id. -/
def parse_citation_group (citation_group : List Char) : List (String × Finset String) :=
  let citations := (splitChar ';' citation_group).map trim
  citations.foldl
    (fun citos c =>
      if c = [] then citos
      else
        let pc := parse_single_citation c
        dUpdate citos (String.mk pc.2) {String.mk pc.1})
    []

/-- Fuel-driven scanner for the regular expression `\[@([^\]]+)\]` used by
CITATION_PATTERN: at a `[@`, the capture runs to the first `]` and must be
non-empty; on failure the scan resumes one character further, on success it
resumes after the closing bracket.  The fuel only bounds recursion depth;
`findallCitations` supplies the list length, which every step exceeds. -/
def findallAux : Nat → List Char → List (List Char)
  | 0, _ => []
  | _ + 1, [] => []
  | fuel + 1, c :: rest =>
      if c = '[' ∧ rest.head? = some '@' then
        let body := rest.tail
        let cap := body.takeWhile (fun c => ¬ c = ']')
        let rem := body.dropWhile (fun c => ¬ c = ']')
        if rem = [] ∨ cap = [] then findallAux fuel rest
        else cap :: findallAux fuel rem.tail
      else findallAux fuel rest

/-- Embedding of `CITATION_PATTERN.findall`: all captures of
`\[@([^\]]+)\]` over the document text, scanned left to right without
overlap. -/
def findallCitations (content : List Char) : List (List Char) :=
  findallAux content.length content

/-- Embedding of `parse_citos_from_qmd`.  The filesystem is passed
explicitly as a partial map from paths to file text; a missing (or
unreadable) file yields `none` and the function returns the empty
dictionary, mirroring the early returns of the script.  Otherwise every
citation group found by the pattern is parsed and folded into a
`defaultdict(set)` via `all_citos[cite_id].update(props)`. -/
def parse_citos_from_qmd (fs : String → Option (List Char)) (qmd_path : String) :
    List (String × Finset String) :=
  match fs qmd_path with
  | none => []
  | some content =>
      (findallCitations content).foldl
        (fun all_citos m => mergeDict all_citos (parse_citation_group m)) []

/-! ## snake_case to camelCase (scripts/snake_to_camel_case.py) -/

/-- Embedding of Python `str.capitalize()`: the first character is
upper-cased and all remaining characters are lower-cased. -/
def capitalize : List Char → List Char
  | [] => []
  | c :: rest => c.toUpper :: rest.map Char.toLower

/-- Embedding of `snake_to_camel_case`: the empty string is returned as is;
otherwise the string is split on underscores, the first component is kept
unchanged and the remaining components are capitalized and concatenated. -/
def snake_to_camel_case (snake_str : String) : String :=
  if snake_str = "" then snake_str
  else
    let components := splitChar '_' snake_str.data
    String.mk (components.headD [] ++ (components.tail.map capitalize).flatten)

/-- A lower-case basic latin letter (a-z), the character class of the CiTO
property words the converter is applied to. -/
def isLowerAlpha (c : Char) : Bool := 97 ≤ c.toNat && c.toNat ≤ 122

/-- A well-formed snake_case name: splitting on underscores gives non-empty
words of lower-case letters only (so no leading, trailing or doubled
underscore). -/
def WellFormedSnake (s : String) : Prop :=
  ∀ w ∈ splitChar '_' s.data, w ≠ [] ∧ ∀ c ∈ w, isLowerAlpha c = true

instance (s : String) : Decidable (WellFormedSnake s) := by
  unfold WellFormedSnake; infer_instance

section CharLemmas

theorem toNat_ofNat_small {n : Nat} (h : n < 55296) : (Char.ofNat n).toNat = n := by
  rw [Char.ofNat, dif_pos (Or.inl (by exact_mod_cast h))]
  rfl

theorem toUpper_toNat {c : Char} (h : isLowerAlpha c = true) :
    (Char.toUpper c).toNat = c.toNat - 32 := by
  have h1 : 97 ≤ c.toNat ∧ c.toNat ≤ 122 := by simpa [isLowerAlpha] using h
  rw [Char.toUpper, if_pos h1, toNat_ofNat_small (by omega)]

theorem isUpper_iff_toNat (c : Char) :
    c.isUpper = true ↔ 65 ≤ c.toNat ∧ c.toNat ≤ 90 := by
  rw [Char.isUpper]
  rw [Bool.and_eq_true, decide_eq_true_eq, decide_eq_true_eq]
  rw [ge_iff_le, UInt32.le_def, UInt32.le_def, BitVec.le_def, BitVec.le_def]
  have h65 : (65 : UInt32).toBitVec.toNat = 65 := rfl
  have h90 : (90 : UInt32).toBitVec.toNat = 90 := rfl
  rw [h65, h90]
  simp [Char.toNat, UInt32.toNat]

theorem isUpper_toUpper {c : Char} (h : isLowerAlpha c = true) :
    (Char.toUpper c).isUpper = true := by
  have h1 : 97 ≤ c.toNat ∧ c.toNat ≤ 122 := by simpa [isLowerAlpha] using h
  rw [isUpper_iff_toNat, toUpper_toNat h]
  omega

theorem isUpper_false_of_lower {c : Char} (h : isLowerAlpha c = true) :
    c.isUpper = false := by
  have h1 : 97 ≤ c.toNat ∧ c.toNat ≤ 122 := by simpa [isLowerAlpha] using h
  rw [Bool.eq_false_iff]
  intro hu
  rw [isUpper_iff_toNat] at hu
  omega

theorem char_eq_of_toNat_eq {a b : Char} (h : a.toNat = b.toNat) : a = b := by
  apply Char.ext
  apply UInt32.eq_of_toBitVec_eq
  apply BitVec.eq_of_toNat_eq
  exact h

theorem toLower_toUpper {c : Char} (h : isLowerAlpha c = true) :
    Char.toLower (Char.toUpper c) = c := by
  have h1 : 97 ≤ c.toNat ∧ c.toNat ≤ 122 := by simpa [isLowerAlpha] using h
  have h2 : (Char.toUpper c).toNat = c.toNat - 32 := toUpper_toNat h
  rw [Char.toLower, if_pos (by omega)]
  apply char_eq_of_toNat_eq
  rw [toNat_ofNat_small (by omega)]
  omega

theorem toLower_of_lower {c : Char} (h : isLowerAlpha c = true) :
    Char.toLower c = c := by
  have h1 : 97 ≤ c.toNat ∧ c.toNat ≤ 122 := by simpa [isLowerAlpha] using h
  rw [Char.toLower, if_neg (by omega)]

end CharLemmas

/-! ## Recovering a snake_case name from its camelCase form -/

def camelComponents (comps : List (List Char)) : List Char :=
  comps.headD [] ++ (comps.tail.map capitalize).flatten

def camelWords : List Char → List (List Char)
  | [] => []
  | c :: rest =>
      (c.toLower :: rest.takeWhile (fun d => !d.isUpper)) ::
        camelWords (rest.dropWhile (fun d => !d.isUpper))
  termination_by l => l.length
  decreasing_by
    simp only [List.length_cons]
    have := (List.dropWhile_sublist (l := rest) (fun d => !d.isUpper)).length_le
    omega

def camelDecode (l : List Char) : List (List Char) :=
  l.takeWhile (fun d => !d.isUpper) :: camelWords (l.dropWhile (fun d => !d.isUpper))

theorem takeWhile_append_all {q : Char → Bool} (a b : List Char)
    (h : ∀ c ∈ a, q c = true) : (a ++ b).takeWhile q = a ++ b.takeWhile q := by
  induction a with
  | nil => simp
  | cons x xs ih =>
      have hx : q x = true := h x (List.mem_cons_self _ _)
      simp only [List.cons_append, List.takeWhile_cons, hx, if_true]
      rw [ih (fun c hc => h c (List.mem_cons_of_mem _ hc))]

theorem dropWhile_append_all {q : Char → Bool} (a b : List Char)
    (h : ∀ c ∈ a, q c = true) : (a ++ b).dropWhile q = b.dropWhile q := by
  induction a with
  | nil => simp
  | cons x xs ih =>
      have hx : q x = true := h x (List.mem_cons_self _ _)
      simp only [List.cons_append, List.dropWhile_cons, hx, if_true]
      exact ih (fun c hc => h c (List.mem_cons_of_mem _ hc))

theorem takeWhile_eq_nil_of_head {q : Char → Bool} (b : List Char)
    (h : ∀ c, b.head? = some c → q c = false) : b.takeWhile q = [] := by
  cases b with
  | nil => rfl
  | cons x xs => simp [List.takeWhile_cons, h x rfl]

/-- The words of a well-formed component list. -/
def WFComps (comps : List (List Char)) : Prop :=
  ∀ w ∈ comps, w ≠ [] ∧ ∀ c ∈ w, isLowerAlpha c = true

theorem map_toLower_self (t : List Char) (h : ∀ c ∈ t, isLowerAlpha c = true) :
    t.map Char.toLower = t := by
  induction t with
  | nil => rfl
  | cons x xs ih =>
      rw [List.map_cons, toLower_of_lower (h x (List.mem_cons_self _ _)),
        ih (fun c hc => h c (List.mem_cons_of_mem _ hc))]

theorem enc_head_upper (rest : List (List Char)) (h : WFComps rest) :
    ∀ c, ((rest.map capitalize).flatten).head? = some c → c.isUpper = true := by
  cases rest with
  | nil => intro c hc; simp at hc
  | cons w more =>
      intro c hc
      obtain ⟨hw, hlc⟩ := h w (List.mem_cons_self _ _)
      obtain ⟨c1, t1, rfl⟩ := List.exists_cons_of_ne_nil hw
      simp only [List.map_cons, List.flatten_cons, capitalize, List.cons_append,
        List.head?_cons, Option.some_inj] at hc
      subst hc
      exact isUpper_toUpper (hlc c1 (List.mem_cons_self _ _))

theorem camelWords_enc (rest : List (List Char)) (h : WFComps rest) :
    camelWords ((rest.map capitalize).flatten) = rest := by
  induction rest with
  | nil => simp [camelWords]
  | cons w more ih =>
      obtain ⟨hw, hlc⟩ := h w (List.mem_cons_self _ _)
      have hmore : WFComps more := fun w hw2 => h w (List.mem_cons_of_mem _ hw2)
      obtain ⟨c1, t1, rfl⟩ := List.exists_cons_of_ne_nil hw
      have ht1 : ∀ c ∈ t1, isLowerAlpha c = true :=
        fun c hc => hlc c (List.mem_cons_of_mem _ hc)
      simp only [List.map_cons, List.flatten_cons, capitalize, List.cons_append]
      rw [camelWords]
      have hq : ∀ c ∈ t1.map Char.toLower, (!c.isUpper) = true := by
        intro c hc
        rw [map_toLower_self t1 ht1] at hc
        rw [isUpper_false_of_lower (ht1 c hc)]
        rfl
      have hhead : ∀ c, ((more.map capitalize).flatten).head? = some c → (!c.isUpper) = false := by
        intro c hc
        rw [enc_head_upper more hmore c hc]
        rfl
      rw [takeWhile_append_all _ _ hq, dropWhile_append_all _ _ hq,
        takeWhile_eq_nil_of_head _ hhead, dropWhile_self_of_head _ hhead,
        toLower_toUpper (hlc c1 (List.mem_cons_self _ _)), map_toLower_self t1 ht1,
        List.append_nil, ih hmore]

theorem camelDecode_encode (comps : List (List Char)) (hne : comps ≠ [])
    (h : WFComps comps) : camelDecode (camelComponents comps) = comps := by
  obtain ⟨w0, rest, rfl⟩ := List.exists_cons_of_ne_nil hne
  obtain ⟨hw0, hlc0⟩ := h w0 (List.mem_cons_self _ _)
  have hrest : WFComps rest := fun w hw2 => h w (List.mem_cons_of_mem _ hw2)
  have hq : ∀ c ∈ w0, (!c.isUpper) = true := by
    intro c hc
    rw [isUpper_false_of_lower (hlc0 c hc)]
    rfl
  have hhead : ∀ c, ((rest.map capitalize).flatten).head? = some c → (!c.isUpper) = false := by
    intro c hc
    rw [enc_head_upper rest hrest c hc]
    rfl
  show camelDecode (w0 ++ (rest.map capitalize).flatten) = w0 :: rest
  rw [camelDecode, takeWhile_append_all _ _ hq, dropWhile_append_all _ _ hq,
    takeWhile_eq_nil_of_head _ hhead, dropWhile_self_of_head _ hhead,
    List.append_nil, camelWords_enc rest hrest]

def joinSep (sep : Char) : List (List Char) → List Char
  | [] => []
  | w :: ws =>
      match ws with
      | [] => w
      | _ :: _ => w ++ sep :: joinSep sep ws

theorem joinSep_cons_cons (sep c : Char) (g : List Char) (gs : List (List Char)) :
    joinSep sep ((c :: g) :: gs) = c :: joinSep sep (g :: gs) := by
  cases gs <;> simp [joinSep]

theorem joinSep_splitChar (sep : Char) (l : List Char) :
    joinSep sep (splitChar sep l) = l := by
  induction l with
  | nil => simp [splitChar, joinSep]
  | cons c rest ih =>
      by_cases h : c = sep
      · subst h
        obtain ⟨g, gs, hg⟩ := List.exists_cons_of_ne_nil (splitChar_ne_nil c rest)
        rw [splitChar, if_pos rfl, hg]
        rw [hg] at ih
        calc joinSep c ([] :: g :: gs) = c :: joinSep c (g :: gs) := rfl
        _ = c :: rest := by rw [ih]
      · obtain ⟨g, gs, hg⟩ := List.exists_cons_of_ne_nil (splitChar_ne_nil sep rest)
        rw [splitChar, if_neg h, hg, joinSep_cons_cons, ← hg, ih]

theorem wf_ne_empty_str {s : String} (h : WellFormedSnake s) : s ≠ "" := by
  intro he
  subst he
  have h0 := h [] (by simp [splitChar])
  exact h0.1 rfl

theorem snake_injective (a b : String) (ha : WellFormedSnake a) (hb : WellFormedSnake b)
    (hne : a ≠ b) : snake_to_camel_case a ≠ snake_to_camel_case b := by
  intro heq
  rw [snake_to_camel_case, if_neg (wf_ne_empty_str ha),
    snake_to_camel_case, if_neg (wf_ne_empty_str hb)] at heq
  have hdata : camelComponents (splitChar '_' a.data) = camelComponents (splitChar '_' b.data) :=
    congrArg String.data heq
  have hcomps := congrArg camelDecode hdata
  rw [camelDecode_encode _ (splitChar_ne_nil _ _) ha,
    camelDecode_encode _ (splitChar_ne_nil _ _) hb] at hcomps
  have : a.data = b.data := by
    rw [← joinSep_splitChar '_' a.data, ← joinSep_splitChar '_' b.data, hcomps]
  apply hne
  cases a; cases b
  simp at this
  rw [this]

/-! ## CiTO injection into HTML (scripts/inject_cito_annotations_in_html.py)

The parsed HTML document is embedded by the parts the script reads and
writes: the optional bibliography container `div#refs` with its ordered
`div.csl-entry` children, each carrying an id attribute and the class
names and texts of its descendant `span` elements (the only child nodes
the script queries or appends); everything else in the page is opaque and
carried through unchanged in `rest`. -/

def REFS_CONTAINER_ID : String := "refs"
def CITO_SPAN_CLASS : String := "cito"
def REF_ID_PRE : String := "ref-"

structure HtmlSpan where
  cls : String
  text : String
deriving DecidableEq

structure BibEntry where
  id : String
  spans : List HtmlSpan
deriving DecidableEq

structure RefsDiv where
  entries : List BibEntry
deriving DecidableEq

structure HtmlDoc where
  refs : Option RefsDiv
  rest : String
deriving DecidableEq

/-- Embedding of `Dict[str, List[str]].get(key, [])`. -/
def listGet : List (String × List String) → String → List String
  | [], _ => []
  | (k', v) :: rest, k => if k' = k then v else listGet rest k

/-- Embedding of the body of the `for entry in bib_entries` loop: skip
entries whose id lacks the `ref-` marker, whose citation id has no
properties, or which already contain a span of class `cito`; otherwise
append the rendered annotation span.  Returns the new entry and whether it
changed. -/
def processEntry (citation_properties : List (String × List String))
    (entry : BibEntry) : BibEntry × Bool :=
  let cid := entry.id
  if ¬ ( REF_ID_PRE.data.isPrefixOf cid.data) then (entry, false)
  else
    let cite_id : String := String.mk (cid.data.drop REF_ID_PRE.length)
    let cito_props := listGet citation_properties cite_id
    if cito_props = [] then (entry, false)
    else if entry.spans.any (fun sp => sp.cls = CITO_SPAN_CLASS) then (entry, false)
    else
      let camel_case_props := cito_props.map snake_to_camel_case
      let annotation_text :=
        String.intercalate " " (camel_case_props.map (fun prop => "[cito:" ++ prop ++ "]"))
      ({ entry with
          spans := entry.spans ++ [⟨ CITO_SPAN_CLASS, " " ++ annotation_text⟩] },
        true)

/-- The in-memory part of `inject_cito_annotations_in_html` once the file
has been read and parsed: `none` when nothing is written back (no refs
container, or no entry changed), `some doc` when the mutated document is
written back. -/
def injectDoc (citation_properties : List (String × List String))
    (soup : HtmlDoc) : Option HtmlDoc :=
  match soup.refs with
  | none => none
  | some refs_container =>
      let processed := refs_container.entries.map (processEntry citation_properties)
      let changed := processed.any (fun r => r.2)
      if changed then
        some { soup with refs := some ⟨processed.map (fun r => r.1)⟩ }
      else none

/-- Embedding of `inject_cito_annotations_in_html`.  The filesystem is an
explicit partial map from paths to parsed documents; the result is the new
content written to `html_path` (`some doc`), or `none` when the function
returns without writing anything — missing file, unreadable file, missing
refs container, or no change. -/
def inject_cito_annotations_in_html (fs : String → Option HtmlDoc)
    (html_path : String) (citation_properties : List (String × List String)) :
    Option HtmlDoc :=
  match fs html_path with
  | none => none
  | some soup => injectDoc citation_properties soup

/-! ## YAML header update (scripts/update_yaml_header.py)

The front matter is embedded as its parsed key order-preserving mapping
(values as their scalar text); the two external inputs — the date string
`make_date` derives from the file name and the DOI string `make_doi` mints
via the external service — are passed in as parameters. -/

structure QmdPost where
  frontMatter : Option (List (String × String))
  body : String
deriving DecidableEq

def hasKeyStr : List (String × String) → String → Bool
  | [], _ => false
  | (k', _) :: rest, k => if k' = k then true else hasKeyStr rest k

def lookupStr : List (String × String) → String → Option String
  | [], _ => none
  | (k', v) :: rest, k => if k' = k then some v else lookupStr rest k

/-- Embedding of `data[k] = v` on a Python dict: replace in place when the
key exists, append otherwise. -/
def setKey : List (String × String) → String → String → List (String × String)
  | [], k, v => [(k, v)]
  | (k', v') :: rest, k, v =>
      if k' = k then (k', v) :: rest else (k', v') :: setKey rest k v

/-- Embedding of `update_yaml_header`: parse the front matter (an absent
block gives an empty mapping with the whole content as body), return
without writing when a `doi` key exists, otherwise set `date` to the
filename-derived date when it differs, add a fresh `doi`, and rewrite the
file with the body stripped of leading whitespace.  `none` means the file
is not written. -/
def update_yaml_header (date_str doi_str : String) (post : QmdPost) : Option QmdPost :=
  let data := post.frontMatter.getD []
  if hasKeyStr data "doi" then none
  else
    let data1 := if lookupStr data "date" = some date_str then data
      else setKey data "date" date_str
    let data2 := setKey data1 "doi" doi_str
    some { frontMatter := some data2, body := String.mk (post.body.data.dropWhile isSpace) }

section YamlLemmas

theorem lookupStr_setKey (d : List (String × String)) (k v : String) :
    lookupStr (setKey d k v) k = some v := by
  induction d with
  | nil => simp [setKey, lookupStr]
  | cons kv rest ih =>
      obtain ⟨k', v'⟩ := kv
      by_cases h : k' = k
      · simp [setKey, lookupStr, h]
      · simp [setKey, lookupStr, h, ih]

theorem lookupStr_setKey_ne (d : List (String × String)) (k v k2 : String)
    (hne : ¬ k = k2) : lookupStr (setKey d k v) k2 = lookupStr d k2 := by
  induction d with
  | nil => simp [setKey, lookupStr, hne]
  | cons kv rest ih =>
      obtain ⟨k', v'⟩ := kv
      by_cases h : k' = k
      · subst h
        simp [setKey, lookupStr, hne]
      · simp [setKey, lookupStr, h, ih]

theorem hasKeyStr_setKey (d : List (String × String)) (k v : String) :
    hasKeyStr (setKey d k v) k = true := by
  induction d with
  | nil => simp [setKey, hasKeyStr]
  | cons kv rest ih =>
      obtain ⟨k', v'⟩ := kv
      by_cases h : k' = k
      · simp [setKey, hasKeyStr, h]
      · simp [setKey, hasKeyStr, h, ih]

end YamlLemmas

/-! ## Lemmas for the HTML injector -/

theorem any_map_general {α β : Type} (l : List α) (f : α → β) (p : β → Bool) :
    (l.map f).any p = l.any (fun a => p (f a)) := by
  induction l with
  | nil => rfl
  | cons x xs ih => simp [ih]

theorem processEntry_eq_of_noPre {props : List (String × List String)} {e : BibEntry}
    (h : REF_ID_PRE.data.isPrefixOf e.id.data = false) :
    processEntry props e = (e, false) := by
  simp only [processEntry]
  rw [if_pos (by simp [h])]

theorem processEntry_eq_of_nilProps {props : List (String × List String)} {e : BibEntry}
    (h1 : REF_ID_PRE.data.isPrefixOf e.id.data = true)
    (h2 : listGet props (String.mk (e.id.data.drop REF_ID_PRE.length)) = []) :
    processEntry props e = (e, false) := by
  simp only [processEntry]
  rw [if_neg (by simp [h1]), if_pos h2]

theorem processEntry_eq_of_hasSpan {props : List (String × List String)} {e : BibEntry}
    (h1 : REF_ID_PRE.data.isPrefixOf e.id.data = true)
    (h2 : ¬ listGet props (String.mk (e.id.data.drop REF_ID_PRE.length)) = [])
    (h3 : e.spans.any (fun sp => sp.cls = CITO_SPAN_CLASS) = true) :
    processEntry props e = (e, false) := by
  simp only [processEntry]
  rw [if_neg (by simp [h1]), if_neg h2, if_pos (by simp [h3])]

theorem processEntry_eq_of_inject {props : List (String × List String)} {e : BibEntry}
    (h1 : REF_ID_PRE.data.isPrefixOf e.id.data = true)
    (h2 : ¬ listGet props (String.mk (e.id.data.drop REF_ID_PRE.length)) = [])
    (h3 : e.spans.any (fun sp => sp.cls = CITO_SPAN_CLASS) = false) :
    processEntry props e =
      ({ e with spans := e.spans ++
          [⟨ CITO_SPAN_CLASS, " " ++ String.intercalate " "
            (((listGet props (String.mk (e.id.data.drop REF_ID_PRE.length))).map
              snake_to_camel_case).map (fun prop => "[cito:" ++ prop ++ "]"))⟩] }, true) := by
  simp only [processEntry]
  rw [if_neg (by simp [h1]), if_neg h2, if_neg (by simp [h3])]

theorem processEntry_processEntry (props : List (String × List String)) (e : BibEntry) :
    processEntry props (processEntry props e).1 = ((processEntry props e).1, false) := by
  by_cases h1 : REF_ID_PRE.data.isPrefixOf e.id.data = true
  · by_cases h2 : listGet props (String.mk (e.id.data.drop REF_ID_PRE.length)) = []
    · rw [processEntry_eq_of_nilProps h1 h2]
      exact processEntry_eq_of_nilProps h1 h2
    · by_cases h3 : e.spans.any (fun sp => sp.cls = CITO_SPAN_CLASS) = true
      · rw [processEntry_eq_of_hasSpan h1 h2 h3]
        exact processEntry_eq_of_hasSpan h1 h2 h3
      · have h3f : e.spans.any (fun sp => sp.cls = CITO_SPAN_CLASS) = false :=
          Bool.eq_false_iff.mpr h3
        rw [processEntry_eq_of_inject h1 h2 h3f]
        dsimp only
        refine processEntry_eq_of_hasSpan ?_ ?_ ?_
        · exact h1
        · exact h2
        · simp [List.any_append]
  · have h1f : REF_ID_PRE.data.isPrefixOf e.id.data = false := Bool.eq_false_iff.mpr h1
    rw [processEntry_eq_of_noPre h1f]
    exact processEntry_eq_of_noPre h1f

theorem processEntry_snd_iff (props : List (String × List String)) (e : BibEntry) :
    (processEntry props e).2 = true ↔
      REF_ID_PRE.data.isPrefixOf e.id.data = true ∧
      listGet props (String.mk (e.id.data.drop REF_ID_PRE.length)) ≠ [] ∧
      e.spans.any (fun sp => sp.cls = CITO_SPAN_CLASS) = false := by
  by_cases h1 : REF_ID_PRE.data.isPrefixOf e.id.data = true
  · by_cases h2 : listGet props (String.mk (e.id.data.drop REF_ID_PRE.length)) = []
    · rw [processEntry_eq_of_nilProps h1 h2]
      simp [h1, h2]
    · by_cases h3 : e.spans.any (fun sp => sp.cls = CITO_SPAN_CLASS) = true
      · rw [processEntry_eq_of_hasSpan h1 h2 h3]
        simp [h1, h2, h3]
      · have h3f := Bool.eq_false_iff.mpr h3
        rw [processEntry_eq_of_inject h1 h2 h3f]
        dsimp only
        simp [h1, h2, h3f]
  · have h1f := Bool.eq_false_iff.mpr h1
    rw [processEntry_eq_of_noPre h1f]
    simp [h1f]

theorem injectDoc_injectDoc {props : List (String × List String)} {doc doc2 : HtmlDoc}
    (h : injectDoc props doc = some doc2) : injectDoc props doc2 = none := by
  rcases hr : doc.refs with _ | rc
  · rw [injectDoc, hr] at h
    exact absurd h (by simp)
  · rw [injectDoc, hr] at h
    by_cases hc : (rc.entries.map (processEntry props)).any (fun r => r.2) = true
    · simp only [hc, if_pos] at h
      have hdoc2 : doc2.refs = some ⟨(rc.entries.map (processEntry props)).map (fun r => r.1)⟩ := by
        rw [← Option.some_inj.mp h]
      rw [injectDoc, hdoc2]
      have hall : ((((rc.entries.map (processEntry props)).map (fun r => r.1)).map
          (processEntry props)).any (fun r => r.2)) = false := by
        rw [List.map_map, List.map_map]
        apply List.any_eq_false.mpr
        intro r hr2
        rw [List.mem_map] at hr2
        obtain ⟨e, he, rfl⟩ := hr2
        simp only [Function.comp]
        rw [processEntry_processEntry]
        simp
      dsimp only
      rw [hall]
      simp
    · have hcf : ((rc.entries.map (processEntry props)).any (fun r => r.2)) = false :=
        Bool.eq_false_iff.mpr hc
      dsimp only at h
      rw [hcf] at h
      simp at h

/-- Claim C1: running inject_cito_annotations_in_html a second time on the
output of a first run changes nothing: at the document level, injecting into
the file content left by a first run (its output when it wrote, the original
document when it did not) performs no write; at the file level, running the
function again against the filesystem updated with the first run's output
performs no write.  An entry that already contains a span of class cito is
skipped, so annotations are never duplicated. -/
theorem claim_C1 :
    (∀ (citation_properties : List (String × List String)) (doc : HtmlDoc),
      injectDoc citation_properties ((injectDoc citation_properties doc).getD doc) = none)
    ∧ (∀ (fs : String → Option HtmlDoc) (html_path : String)
        (citation_properties : List (String × List String)),
      inject_cito_annotations_in_html
        (fun p => if p = html_path
          then (inject_cito_annotations_in_html fs html_path citation_properties).or (fs p)
          else fs p)
        html_path citation_properties = none) := by
  constructor
  · intro props doc
    cases h : injectDoc props doc with
    | none => simpa using h
    | some d2 =>
        exact injectDoc_injectDoc h
  · intro fs path props
    rw [inject_cito_annotations_in_html]
    cases hf : fs path with
    | none =>
        have hin : inject_cito_annotations_in_html fs path props = none := by
          rw [inject_cito_annotations_in_html, hf]
        simp [hin]
    | some doc =>
        have hin : inject_cito_annotations_in_html fs path props = injectDoc props doc := by
          rw [inject_cito_annotations_in_html, hf]
        cases hi : injectDoc props doc with
        | none => simp [hin, hi]
        | some d2 => simp [hin, hi, injectDoc_injectDoc hi]

/-- Claim C6: inject_cito_annotations_in_html rewrites the HTML file if and
only if at least one bibliography entry changed — an entry whose id has the
ref- marker, whose citation id has a non-empty property lookup, and which
has no pre-existing cito span; when no entry changed the file is not
written (the result is none, meaning the contents stay untouched). -/
theorem claim_C6 (fs : String → Option HtmlDoc) (html_path : String)
    (citation_properties : List (String × List String)) (soup : HtmlDoc)
    (hread : fs html_path = some soup) :
    inject_cito_annotations_in_html fs html_path citation_properties ≠ none ↔
      ∃ rc, soup.refs = some rc ∧ ∃ e ∈ rc.entries,
        REF_ID_PRE.data.isPrefixOf e.id.data = true ∧
        listGet citation_properties (String.mk (e.id.data.drop REF_ID_PRE.length)) ≠ [] ∧
        e.spans.any (fun sp => sp.cls = CITO_SPAN_CLASS) = false := by
  rw [inject_cito_annotations_in_html, hread]
  dsimp only
  rcases hr : soup.refs with _ | rc
  · rw [injectDoc, hr]
    simp
  · rw [injectDoc, hr]
    dsimp only
    by_cases hc : ((rc.entries.map (processEntry citation_properties)).any (fun r => r.2)) = true
    · rw [hc]
      simp only [if_pos]
      constructor
      · intro _
        rw [any_map_general, List.any_eq_true] at hc
        obtain ⟨e, he, hpe⟩ := hc
        exact ⟨rc, rfl, e, he, (processEntry_snd_iff citation_properties e).mp hpe⟩
      · intro _
        simp
    · have hcf := Bool.eq_false_iff.mpr hc
      rw [hcf]
      simp only [Bool.false_eq_true, if_false, ne_eq, not_true_eq_false, false_iff]
      rintro ⟨rc2, hrc2, e, he, hcond⟩
      rw [← Option.some_inj.mp hrc2] at he
      apply hc
      rw [any_map_general, List.any_eq_true]
      exact ⟨e, he, (processEntry_snd_iff citation_properties e).mpr hcond⟩

/-- Claim C9: missing input files produce a skip: for a path that does not
exist parse_citos_from_qmd returns the empty mapping and
inject_cito_annotations_in_html returns without writing any file; likewise
the injector returns without writing when the document has no refs
container. -/
theorem claim_C9 :
    (∀ (fs : String → Option HtmlDoc) (html_path : String)
        (citation_properties : List (String × List String)),
      fs html_path = none →
        inject_cito_annotations_in_html fs html_path citation_properties = none)
    ∧ (∀ (fs : String → Option HtmlDoc) (html_path : String)
        (citation_properties : List (String × List String)) (soup : HtmlDoc),
      fs html_path = some soup → soup.refs = none →
        inject_cito_annotations_in_html fs html_path citation_properties = none)
    ∧ (∀ (fs : String → Option (List Char)) (qmd_path : String),
      fs qmd_path = none → parse_citos_from_qmd fs qmd_path = []) := by
  refine ⟨?_, ?_, ?_⟩
  · intro fs path props h
    rw [inject_cito_annotations_in_html, h]
  · intro fs path props soup h hrefs
    rw [inject_cito_annotations_in_html, h]
    dsimp only
    rw [injectDoc, hrefs]
  · intro fs path h
    rw [parse_citos_from_qmd, h]

theorem claim_C9_witness :
    inject_cito_annotations_in_html (fun _ => none) "post.html" [] = none
    ∧ inject_cito_annotations_in_html (fun _ => some ⟨none, "page"⟩) "post.html" [] = none
    ∧ parse_citos_from_qmd (fun _ => none) "post.qmd" = [] :=
  ⟨claim_C9.1 _ "post.html" [] rfl,
   claim_C9.2.1 _ "post.html" [] ⟨none, "page"⟩ rfl rfl,
   claim_C9.2.2 _ "post.qmd" rfl⟩

theorem claim_C6_witness :
    inject_cito_annotations_in_html
      (fun _ => some ⟨some ⟨[⟨"ref-smith2020", []⟩]⟩, "page"⟩) "post.html"
      [("smith2020", ["supports"])] ≠ none :=
  (claim_C6 _ "post.html" [("smith2020", ["supports"])] _ rfl).mpr
    ⟨⟨[⟨"ref-smith2020", []⟩]⟩, rfl, ⟨"ref-smith2020", []⟩, List.mem_cons_self _ _,
      by decide, by decide, by decide⟩


/-! ## Claims about merging and parsed-dictionary invariants -/

/-- Claim C2: merge_citos returns a mapping whose key set is the union of
all input key sets, and for every id the merged property set is exactly the
union of that id's property sets across all inputs (so a superset of each
input's set, and no property is ever lost); moreover merging the mapping
with a bound to the set x, and the mapping with a bound to the set y and b
bound to the set z, yields a bound to the set with x and y, and b bound to
the set z. -/
theorem claim_C2 :
    (∀ ds : List (List (String × Finset String)),
      (∀ d ∈ ds, (d.map Prod.fst).Nodup) →
      (∀ k, dHasKey (merge_citos ds) k = true ↔ ∃ d ∈ ds, dHasKey d k = true)
      ∧ (∀ k p, p ∈ dGet (merge_citos ds) k ↔ ∃ d ∈ ds, p ∈ dGet d k))
    ∧ merge_citos [[("a", ({"x"} : Finset String))], [("a", {"y"}), ("b", {"z"})]]
        = [("a", {"x", "y"}), ("b", {"z"})] := by
  constructor
  · intro ds hnd
    constructor
    · intro k
      rw [dHasKey_merge_citos, List.any_eq_true]
    · intro k p
      rw [mem_dGet_merge_citos]
      constructor
      · rintro ⟨d, hd, kv, hkv, hk, hp⟩
        exact ⟨d, hd, (mem_dGet_of_nodupKeys d k p (hnd d hd)).mp ⟨kv, hkv, hk, hp⟩⟩
      · rintro ⟨d, hd, hp⟩
        obtain ⟨kv, hkv, hk, hp2⟩ := (mem_dGet_of_nodupKeys d k p (hnd d hd)).mpr hp
        exact ⟨d, hd, kv, hkv, hk, hp2⟩
  · decide

theorem claim_C2_witness :
    dHasKey (merge_citos [[("a", ({"x"} : Finset String))], [("a", {"y"}), ("b", {"z"})]])
        "b" = true
    ∧ "y" ∈ dGet (merge_citos [[("a", ({"x"} : Finset String))], [("a", {"y"}), ("b", {"z"})]])
        "a" := by
  constructor
  · exact ((claim_C2.1 _ (by decide)).1 "b").mpr ⟨[("a", {"y"}), ("b", {"z"})], by decide, by decide⟩
  · exact ((claim_C2.1 _ (by decide)).2 "a" "y").mpr ⟨[("a", {"y"}), ("b", {"z"})], by decide, by decide⟩

/-- Claim C3: merge_citos is deterministic and order-independent: merging
any permutation of the input list yields a mapping equal to merging the
original — the same keys and the same property set for every key. -/
theorem claim_C3 (ds ds2 : List (List (String × Finset String))) (hperm : ds.Perm ds2) :
    ∀ k : String, dHasKey (merge_citos ds) k = dHasKey (merge_citos ds2) k
      ∧ dGet (merge_citos ds) k = dGet (merge_citos ds2) k := by
  intro k
  constructor
  · rw [dHasKey_merge_citos, dHasKey_merge_citos]
    cases hv : ds2.any (fun d => dHasKey d k) with
    | true =>
        rw [List.any_eq_true] at hv ⊢
        obtain ⟨d, hd, h⟩ := hv
        exact ⟨d, hperm.mem_iff.mpr hd, h⟩
    | false =>
        rw [List.any_eq_false] at hv ⊢
        intro d hd
        exact hv d (hperm.mem_iff.mp hd)
  · apply Finset.ext
    intro p
    rw [mem_dGet_merge_citos, mem_dGet_merge_citos]
    constructor
    · rintro ⟨d, hd, rest⟩
      exact ⟨d, hperm.mem_iff.mp hd, rest⟩
    · rintro ⟨d, hd, rest⟩
      exact ⟨d, hperm.mem_iff.mpr hd, rest⟩

theorem claim_C3_witness :
    dGet (merge_citos [[("a", ({"x"} : Finset String))], [("a", {"y"}), ("b", {"z"})]]) "a"
      = dGet (merge_citos [[("a", ({"y"} : Finset String)), ("b", {"z"})], [("a", {"x"})]]) "a" :=
  (claim_C3 _ _ (List.Perm.swap _ _ []) "a").2

theorem dUpdate_nonempty {α β : Type} [DecidableEq α] [DecidableEq β]
    (m : List (α × Finset β)) (k : α) (ps : Finset β)
    (hm : ∀ kv ∈ m, kv.2 ≠ ∅) (hps : ps ≠ ∅) :
    ∀ kv ∈ dUpdate m k ps, kv.2 ≠ ∅ := by
  induction m with
  | nil =>
      intro kv hkv
      simp only [dUpdate, List.mem_singleton] at hkv
      subst hkv
      exact hps
  | cons kv0 rest ih =>
      obtain ⟨k₀, v₀⟩ := kv0
      intro kv hkv
      by_cases h : k₀ = k
      · simp only [dUpdate, if_pos h] at hkv
        rcases List.mem_cons.mp hkv with h2 | h2
        · subst h2
          intro he
          have : ps ⊆ (∅ : Finset β) := he ▸ Finset.subset_union_right
          exact hps (Finset.subset_empty.mp this)
        · exact hm kv (List.mem_cons_of_mem _ h2)
      · simp only [dUpdate, if_neg h] at hkv
        rcases List.mem_cons.mp hkv with h2 | h2
        · subst h2
          exact hm (k₀, v₀) (List.mem_cons_self _ _)
        · exact ih (fun kv2 hkv2 => hm kv2 (List.mem_cons_of_mem _ hkv2)) kv h2

theorem mergeDict_nonempty {α β : Type} [DecidableEq α] [DecidableEq β]
    (m d : List (α × Finset β))
    (hm : ∀ kv ∈ m, kv.2 ≠ ∅) (hd : ∀ kv ∈ d, kv.2 ≠ ∅) :
    ∀ kv ∈ mergeDict m d, kv.2 ≠ ∅ := by
  induction d generalizing m with
  | nil => exact fun kv hkv => hm kv hkv
  | cons kv0 rest ih =>
      have step : mergeDict m (kv0 :: rest) = mergeDict (dUpdate m kv0.1 kv0.2) rest := rfl
      rw [step]
      exact ih (dUpdate m kv0.1 kv0.2)
        (dUpdate_nonempty m kv0.1 kv0.2 hm (hd kv0 (List.mem_cons_self _ _)))
        (fun kv2 hkv2 => hd kv2 (List.mem_cons_of_mem _ hkv2))

theorem parse_citation_group_nonempty (g : List Char) :
    ∀ kv ∈ parse_citation_group g, kv.2 ≠ ∅ := by
  have general : ∀ (cs : List (List Char)) (acc : List (String × Finset String)),
      (∀ kv ∈ acc, kv.2 ≠ ∅) →
      ∀ kv ∈ cs.foldl
        (fun citos c =>
          if c = [] then citos
          else
            let pc := parse_single_citation c
            dUpdate citos (String.mk pc.2) {String.mk pc.1})
        acc, kv.2 ≠ ∅ := by
    intro cs
    induction cs with
    | nil => exact fun acc hacc kv hkv => hacc kv hkv
    | cons c rest ih =>
        intro acc hacc
        rw [List.foldl_cons]
        by_cases h : c = []
        · rw [if_pos h]
          exact ih acc hacc
        · rw [if_neg h]
          exact ih _ (dUpdate_nonempty acc _ _ hacc (Finset.singleton_ne_empty _))
  exact general _ [] (by simp)

/-- Claim C10: every mapping returned by parse_citation_group, and hence by
parse_citos_from_qmd, maps each citation id it contains to a non-empty set
of properties: no key is ever present with an empty property set, because a
key is only created at the moment a property is added to it. -/
theorem claim_C10 :
    (∀ (citation_group : List Char) (kv : String × Finset String),
      kv ∈ parse_citation_group citation_group → kv.2 ≠ ∅)
    ∧ (∀ (fs : String → Option (List Char)) (qmd_path : String) (kv : String × Finset String),
      kv ∈ parse_citos_from_qmd fs qmd_path → kv.2 ≠ ∅) := by
  constructor
  · intro g kv hkv
    exact parse_citation_group_nonempty g kv hkv
  · intro fs path kv hkv
    rcases hf : fs path with _ | content
    · rw [parse_citos_from_qmd, hf] at hkv
      simp at hkv
    · rw [parse_citos_from_qmd, hf] at hkv
      dsimp only at hkv
      have general : ∀ (ms : List (List Char)) (acc : List (String × Finset String)),
          (∀ kv2 ∈ acc, kv2.2 ≠ ∅) →
          ∀ kv2 ∈ ms.foldl (fun all_citos m => mergeDict all_citos (parse_citation_group m)) acc,
            kv2.2 ≠ ∅ := by
        intro ms
        induction ms with
        | nil => exact fun acc hacc kv2 hkv2 => hacc kv2 hkv2
        | cons mm rest ih =>
            intro acc hacc
            rw [List.foldl_cons]
            exact ih _ (mergeDict_nonempty _ _ hacc (parse_citation_group_nonempty mm))
      exact general _ [] (by simp) kv hkv

theorem claim_C10_witness :
    (("smith2020", ({"supports"} : Finset String)) ∈
        parse_citation_group "supports:smith2020".data →
      (("smith2020", ({"supports"} : Finset String)) : String × Finset String).2 ≠ ∅)
    ∧ parse_citation_group "supports:smith2020".data
        = [("smith2020", ({"supports"} : Finset String))] :=
  ⟨claim_C10.1 "supports:smith2020".data _, by decide⟩


/-! ## Claims about the citation parser -/

theorem splitFirst_no_sep {sep : Char} {s : List Char} (h : sep ∉ s) :
    splitFirst sep s = [s] := by
  rw [splitFirst, if_neg h]

/-- Claim C4: the citation pattern extracts the group inside the marker
containing supports:smith2020 and cites:jones2021, and parsing that group
(splitting on semicolons, then each entry on its first colon) yields
exactly the mapping smith2020 to the set with supports and jones2021 to
the set with cites. -/
theorem claim_C4 :
    findallCitations "[@supports:smith2020; @cites:jones2021]".data
        = ["supports:smith2020; @cites:jones2021".data]
    ∧ parse_citation_group "supports:smith2020; @cites:jones2021".data
        = [("smith2020", {"supports"}), ("jones2021", {"cites"})] := by
  exact ⟨by decide, by decide⟩

theorem parse_single_no_colon_prop (citation : List Char) (h : ':' ∉ citation) :
    (parse_single_citation citation).1 = DEFAULT_CITO_PROPERTY := by
  rw [parse_single_citation]
  have h1 : ':' ∉ trim citation := fun hc => h (mem_of_mem_trim hc)
  by_cases hh : (trim citation).head? = some '@'
  · rw [if_pos hh]
    have h2 : ':' ∉ trim (trim citation).tail := fun hc =>
      h1 (List.mem_of_mem_tail (mem_of_mem_trim hc))
    rw [splitFirst_no_sep h2]
  · rw [if_neg hh]
    rw [splitFirst_no_sep h1]

theorem parse_single_default (citation : List Char) (h : ':' ∉ citation)
    (h2 : '@' ∉ citation) :
    parse_single_citation citation = (DEFAULT_CITO_PROPERTY, trim citation) := by
  rw [parse_single_citation]
  have h1 : ':' ∉ trim citation := fun hc => h (mem_of_mem_trim hc)
  have hh : ¬ (trim citation).head? = some '@' := by
    intro hc
    apply h2
    apply mem_of_mem_trim
    cases he : trim citation with
    | nil => rw [he] at hc; simp at hc
    | cons a t =>
        rw [he] at hc
        simp only [List.head?_cons, Option.some_inj] at hc
        subst hc
        exact List.mem_cons_self _ _
  rw [if_neg hh, splitFirst_no_sep h1]
  show (DEFAULT_CITO_PROPERTY, trim (trim citation)) = (DEFAULT_CITO_PROPERTY, trim citation)
  rw [trim_idem]

theorem parse_single_explicit (p i : List Char) (hcp : ':' ∉ p) (hap : '@' ∉ p)
    (hsp : ∀ c ∈ p, isSpace c = false) (hsi : ∀ c ∈ i, isSpace c = false) :
    parse_single_citation (p ++ ':' :: i) = (p, i) := by
  have hall : ∀ c ∈ p ++ ':' :: i, isSpace c = false := by
    intro c hc
    rcases List.mem_append.mp hc with h1 | h1
    · exact hsp c h1
    · rcases List.mem_cons.mp h1 with h2 | h2
      · rw [h2]; rfl
      · exact hsi c h2
  have htrim : trim (p ++ ':' :: i) = p ++ ':' :: i := trim_of_noSpace hall
  rw [parse_single_citation]
  rw [htrim]
  have hh : ¬ (p ++ ':' :: i).head? = some '@' := by
    cases p with
    | nil => simp
    | cons a p' =>
        simp only [List.cons_append, List.head?_cons, Option.some_inj]
        intro hc
        exact hap (hc ▸ List.mem_cons_self _ _)
  rw [if_neg hh]
  have hmem : ':' ∈ p ++ ':' :: i := List.mem_append.mpr (Or.inr (List.mem_cons_self _ _))
  have hq : ∀ c ∈ p, (fun c => (¬ c = ':' : Bool)) c = true := by
    intro c hc
    simp only [decide_eq_true_eq]
    exact fun he => hcp (he ▸ hc)
  rw [splitFirst, if_pos hmem]
  rw [takeWhile_append_all p (':' :: i) hq, dropWhile_append_all p (':' :: i) hq]
  rw [List.takeWhile_cons, if_neg (by decide), List.dropWhile_cons, if_neg (by decide)]
  rw [List.append_nil]
  show (trim p, trim i) = (p, i)
  rw [trim_of_noSpace hsp, trim_of_noSpace hsi]

/-- Claim C5: a citation entry with no colon gets the default property
"citation" (unconditionally for the property component; paired with the
stripped entry text as the id when the entry carries no at-sign marker),
while an entry in explicit property:id form returns that property; hence
a group with one explicit entry and one without yields the default
"citation" property for the latter only. -/
theorem claim_C5 :
    (∀ citation : List Char, ':' ∉ citation →
      (parse_single_citation citation).1 = DEFAULT_CITO_PROPERTY)
    ∧ (∀ citation : List Char, ':' ∉ citation → '@' ∉ citation →
      parse_single_citation citation = (DEFAULT_CITO_PROPERTY, trim citation))
    ∧ (∀ p i : List Char, ':' ∉ p → '@' ∉ p →
      (∀ c ∈ p, isSpace c = false) → (∀ c ∈ i, isSpace c = false) →
      parse_single_citation (p ++ ':' :: i) = (p, i))
    ∧ parse_citation_group "@supports:smith2020; @jones2021".data
        = [("smith2020", {"supports"}), ("jones2021", {"citation"})] :=
  ⟨parse_single_no_colon_prop, parse_single_default, parse_single_explicit, by decide⟩

theorem claim_C5_witness :
    parse_single_citation "jones2021".data = ("citation".data, "jones2021".data)
    ∧ parse_single_citation "supports:smith2020".data
        = ("supports".data, "smith2020".data) := by
  constructor
  · have h := claim_C5.2.1 "jones2021".data (by decide) (by decide)
    rw [h]
    decide
  · have h := claim_C5.2.2.1 "supports".data "smith2020".data
      (by decide) (by decide) (by decide) (by decide)
    simpa using h


/-! ## Claims about the metadata updater and the case converter -/

/-- Claim C7 counterexample: on a post whose front matter has a doi key but
no date key, update_yaml_header returns without writing, so the date field
is not filled in although it is absent — refuting the claim that the date
field is filled in whenever it is absent. -/
theorem claim_C7_counterexample :
    update_yaml_header "2025-01-01" "10.59350/abc"
        ⟨some [("doi", "10.59350/xyz")], "body"⟩ = none
    ∧ hasKeyStr ((⟨some [("doi", "10.59350/xyz")], "body"⟩ : QmdPost).frontMatter.getD [])
        "date" = false
    ∧ hasKeyStr
        (((update_yaml_header "2025-01-01" "10.59350/abc"
              ⟨some [("doi", "10.59350/xyz")], "body"⟩).getD
            ⟨some [("doi", "10.59350/xyz")], "body"⟩).frontMatter.getD [])
        "date" = false := by
  refine ⟨by decide, by decide, by decide⟩

/-- Claim C7 (amended): update_yaml_header does nothing whenever the doi
field is already present (even when the date field is absent or stale);
when the doi field is absent it sets the date field to the filename-derived
date, adds the doi field, and rewrites the file.  In particular once both
fields are present it does nothing, and a second run after any first run is
always a no-op because the first run leaves the doi field present. -/
theorem claim_C7_amended (date_str doi_str : String) (post : QmdPost) :
    (hasKeyStr (post.frontMatter.getD []) "doi" = true →
      update_yaml_header date_str doi_str post = none)
    ∧ (hasKeyStr (post.frontMatter.getD []) "doi" = false →
      ∃ data2, update_yaml_header date_str doi_str post
          = some ⟨some data2, String.mk (post.body.data.dropWhile isSpace)⟩
        ∧ lookupStr data2 "date" = some date_str
        ∧ lookupStr data2 "doi" = some doi_str
        ∧ hasKeyStr data2 "doi" = true)
    ∧ (∀ date_str2 doi_str2 : String,
      update_yaml_header date_str2 doi_str2
        ((update_yaml_header date_str doi_str post).getD post) = none) := by
  have part1 : hasKeyStr (post.frontMatter.getD []) "doi" = true →
      update_yaml_header date_str doi_str post = none := by
    intro h
    rw [update_yaml_header, if_pos h]
  have part2 : hasKeyStr (post.frontMatter.getD []) "doi" = false →
      ∃ data2, update_yaml_header date_str doi_str post
          = some ⟨some data2, String.mk (post.body.data.dropWhile isSpace)⟩
        ∧ lookupStr data2 "date" = some date_str
        ∧ lookupStr data2 "doi" = some doi_str
        ∧ hasKeyStr data2 "doi" = true := by
    intro h
    rw [update_yaml_header, if_neg (by simp [h])]
    refine ⟨_, rfl, ?_, lookupStr_setKey _ _ _, hasKeyStr_setKey _ _ _⟩
    rw [lookupStr_setKey_ne _ _ _ _ (by decide)]
    by_cases hd : lookupStr (post.frontMatter.getD []) "date" = some date_str
    · rw [if_pos hd]
      exact hd
    · rw [if_neg hd]
      exact lookupStr_setKey _ _ _
  refine ⟨part1, part2, ?_⟩
  intro ds2 di2
  by_cases hdoi : hasKeyStr (post.frontMatter.getD []) "doi" = true
  · rw [part1 hdoi]
    simp only [Option.getD_none]
    rw [update_yaml_header, if_pos hdoi]
  · have hf := Bool.eq_false_iff.mpr hdoi
    obtain ⟨data2, heq, _, _, hdoi2⟩ := part2 hf
    rw [heq]
    simp only [Option.getD_some]
    rw [update_yaml_header, if_pos (by simpa using hdoi2)]

theorem claim_C7_amended_witness :
    update_yaml_header "2025-01-01" "10.59350/abc" ⟨some [("doi", "10.59350/xyz")], "b"⟩ = none
    ∧ update_yaml_header "2025-01-01" "10.59350/abc"
        ⟨some [("title", "t")], " b"⟩
        = some ⟨some [("title", "t"), ("date", "2025-01-01"), ("doi", "10.59350/abc")], "b"⟩
    ∧ update_yaml_header "2026-02-02" "10.59350/def"
        ((update_yaml_header "2025-01-01" "10.59350/abc"
            ⟨some [("title", "t")], " b"⟩).getD ⟨some [("title", "t")], " b"⟩) = none := by
  refine ⟨(claim_C7_amended "2025-01-01" "10.59350/abc" _).1 (by decide), by decide, ?_⟩
  exact (claim_C7_amended "2025-01-01" "10.59350/abc" _).2.2 "2026-02-02" "10.59350/def"

/-- The well-formedness condition exactly as the claim states it: splitting
on underscores gives non-empty words (so no leading, trailing or doubled
underscore), with no restriction on the characters inside a word. -/
def WordsNonEmptySnake (s : String) : Prop :=
  ∀ w ∈ splitChar '_' s.data, w ≠ []

instance (s : String) : Decidable (WordsNonEmptySnake s) := by
  unfold WordsNonEmptySnake; infer_instance

/-- Claim C8 counterexample: under the claim's own well-formedness
condition (non-empty words separated by single underscores, no character
restriction), the conversion is not injective: the names a1 and a_1 are
both well-formed in that sense and distinct, yet both convert to a1,
because capitalizing the word consisting of the digit 1 leaves it
unchanged.  This refutes the claim as stated. -/
theorem claim_C8_counterexample :
    WordsNonEmptySnake "a1" ∧ WordsNonEmptySnake "a_1" ∧ ("a1" : String) ≠ "a_1"
    ∧ snake_to_camel_case "a1" = snake_to_camel_case "a_1" := by
  refine ⟨by decide, by decide, by decide, by decide⟩

/-- Claim C8 (amended): snake_to_camel_case converts cites_as_evidence to
citesAsEvidence, and the conversion is lossless on well-formed snake_case
property names when the words are non-empty and consist of lower-case
letters only (the character class of the CiTO property names the converter
is applied to): distinct such names give distinct camelCase results, so the
original property is recoverable from the rendered tag.  The word
restriction is forced by the counterexample: a digit or upper-case letter
starting a word survives capitalization unchanged, which erases the word
boundary. -/
theorem claim_C8 :
    snake_to_camel_case "cites_as_evidence" = "citesAsEvidence"
    ∧ (∀ a b : String, WellFormedSnake a → WellFormedSnake b → a ≠ b →
        snake_to_camel_case a ≠ snake_to_camel_case b) :=
  ⟨by decide, fun a b ha hb hne => snake_injective a b ha hb hne⟩

theorem claim_C8_witness :
    WellFormedSnake "cites_as_evidence" ∧ WellFormedSnake "cites_as_authority"
    ∧ snake_to_camel_case "cites_as_evidence" ≠ snake_to_camel_case "cites_as_authority" :=
  ⟨by decide, by decide, claim_C8.2 _ _ (by decide) (by decide) (by decide)⟩

end Spec2Proof
